import Mathlib

/-
Verification of the meal-recommendation application.

The repository source under verification consists of the React presentation
layer (notably the Home page, whose featured-meals comparator and stats
computation are embedded below in the Home namespace) and the specified
recommendation ranking engine.  The ranking engine itself is not present in
the source tree; following the specification document, it is modelled here
faithfully from the spec text (every such definition carries a doc comment
starting with the words Modelled from the spec).

Numeric values (ratings, calories, scores) are embedded as exact rational
numbers.  To keep every definition executable by the kernel, rationals are
represented by the type Frac of integer fractions with positive denominator
and no normalisation; the semantics map Frac.toQ sends a fraction to the
Mathlib rational it denotes, and all order-theoretic reasoning happens on
the toQ values.
-/

namespace MealRec

/-- Exact rational number represented as an integer fraction with a positive
denominator.  No normalisation is performed, so all arithmetic is executable
by kernel reduction; the denoted value is given by toQ. -/
structure Frac where
  num : ℤ
  den : ℤ
  den_pos : 0 < den

namespace Frac

/-- Value denoted by a fraction, as a Mathlib rational. -/
def toQ (f : Frac) : ℚ := (f.num : ℚ) / (f.den : ℚ)

/-- Fraction with value 0. -/
def zero : Frac := ⟨0, 1, one_pos⟩

/-- Fraction with value 1. -/
def one : Frac := ⟨1, 1, one_pos⟩

/-- Embedding of a natural number as a fraction. -/
def ofNat (n : ℕ) : Frac := ⟨n, 1, one_pos⟩

/-- Sum of two fractions. -/
def add (f g : Frac) : Frac :=
  ⟨f.num * g.den + g.num * f.den, f.den * g.den, mul_pos f.den_pos g.den_pos⟩

/-- Difference of two fractions. -/
def sub (f g : Frac) : Frac :=
  ⟨f.num * g.den - g.num * f.den, f.den * g.den, mul_pos f.den_pos g.den_pos⟩

/-- Product of two fractions. -/
def mul (f g : Frac) : Frac :=
  ⟨f.num * g.num, f.den * g.den, mul_pos f.den_pos g.den_pos⟩

/-- Quotient of two fractions; division by a zero-valued fraction yields the
zero fraction, matching the division-by-zero convention of Mathlib
rationals. -/
def div (f g : Frac) : Frac :=
  if h : 0 < g.num then ⟨f.num * g.den, f.den * g.num, mul_pos f.den_pos h⟩
  else if h2 : g.num < 0 then
    ⟨-(f.num * g.den), f.den * (-g.num), mul_pos f.den_pos (neg_pos.mpr h2)⟩
  else zero

/-- Absolute value of a fraction. -/
def absF (f : Frac) : Frac := ⟨|f.num|, f.den, f.den_pos⟩

/-- Executable value comparison: less-or-equal. -/
def leB (f g : Frac) : Bool := decide (f.num * g.den ≤ g.num * f.den)

/-- Executable value comparison: strictly-less. -/
def ltB (f g : Frac) : Bool := decide (f.num * g.den < g.num * f.den)

/-- Executable value comparison: equality of denoted values. -/
def eqB (f g : Frac) : Bool := decide (f.num * g.den = g.num * f.den)

/-- Minimum by denoted value. -/
def minF (f g : Frac) : Frac := if leB f g then f else g

/-- Maximum by denoted value. -/
def maxF (f g : Frac) : Frac := if leB f g then g else f

theorem den_cast_pos (f : Frac) : (0 : ℚ) < (f.den : ℚ) := by
  exact_mod_cast f.den_pos

theorem den_cast_ne (f : Frac) : (f.den : ℚ) ≠ 0 :=
  ne_of_gt (den_cast_pos f)

@[simp] theorem toQ_zero : toQ zero = 0 := by simp [toQ, zero]

@[simp] theorem toQ_one : toQ one = 1 := by simp [toQ, one]

@[simp] theorem toQ_ofNat (n : ℕ) : toQ (ofNat n) = n := by simp [toQ, ofNat]

@[simp] theorem toQ_add (f g : Frac) : toQ (add f g) = toQ f + toQ g := by
  simp only [toQ, add]
  push_cast
  rw [div_add_div _ _ (den_cast_ne f) (den_cast_ne g)]
  ring_nf

@[simp] theorem toQ_sub (f g : Frac) : toQ (sub f g) = toQ f - toQ g := by
  simp only [toQ, sub]
  push_cast
  rw [div_sub_div _ _ (den_cast_ne f) (den_cast_ne g)]
  ring_nf

@[simp] theorem toQ_mul (f g : Frac) : toQ (mul f g) = toQ f * toQ g := by
  simp only [toQ, mul]
  push_cast
  field_simp

@[simp] theorem toQ_div (f g : Frac) : toQ (div f g) = toQ f / toQ g := by
  unfold div
  by_cases h : 0 < g.num
  · simp only [dif_pos h]
    have hg : (g.num : ℚ) ≠ 0 := by exact_mod_cast ne_of_gt h
    simp only [toQ]
    push_cast
    field_simp
    try ring
  · by_cases h2 : g.num < 0
    · simp only [dif_neg h, dif_pos h2]
      have hg : (g.num : ℚ) ≠ 0 := by exact_mod_cast ne_of_lt h2
      simp only [toQ]
      push_cast
      field_simp
      try ring
    · have hz : g.num = 0 := le_antisymm (not_lt.mp h) (not_lt.mp h2)
      have hgz : toQ g = 0 := by simp [toQ, hz]
      simp only [dif_neg h, dif_neg h2]
      rw [hgz, div_zero, toQ_zero]

@[simp] theorem toQ_absF (f : Frac) : toQ (absF f) = |toQ f| := by
  unfold toQ absF
  rw [abs_div, abs_of_pos (den_cast_pos f)]
  push_cast
  simp

theorem leB_iff {f g : Frac} : leB f g = true ↔ toQ f ≤ toQ g := by
  unfold leB toQ
  rw [decide_eq_true_iff, div_le_div_iff₀ (den_cast_pos f) (den_cast_pos g)]
  exact_mod_cast Iff.rfl

theorem ltB_iff {f g : Frac} : ltB f g = true ↔ toQ f < toQ g := by
  unfold ltB toQ
  rw [decide_eq_true_iff, div_lt_div_iff₀ (den_cast_pos f) (den_cast_pos g)]
  exact_mod_cast Iff.rfl

theorem eqB_iff {f g : Frac} : eqB f g = true ↔ toQ f = toQ g := by
  unfold eqB toQ
  rw [decide_eq_true_iff, div_eq_div_iff (den_cast_ne f) (den_cast_ne g)]
  exact_mod_cast Iff.rfl

@[simp] theorem toQ_minF (f g : Frac) : toQ (minF f g) = min (toQ f) (toQ g) := by
  unfold minF
  by_cases h : leB f g = true
  · rw [if_pos h]
    exact (min_eq_left (leB_iff.mp h)).symm
  · have h2 : toQ g ≤ toQ f := le_of_not_le (mt leB_iff.mpr h)
    simp only [h, Bool.false_eq_true, if_false]
    exact (min_eq_right h2).symm

@[simp] theorem toQ_maxF (f g : Frac) : toQ (maxF f g) = max (toQ f) (toQ g) := by
  unfold maxF
  by_cases h : leB f g = true
  · rw [if_pos h]
    exact (max_eq_right (leB_iff.mp h)).symm
  · have h2 : toQ g ≤ toQ f := le_of_not_le (mt leB_iff.mpr h)
    simp only [h, Bool.false_eq_true, if_false]
    exact (max_eq_left h2).symm

end Frac

section SortLib

variable {α : Type}

/-- Insert an element into a list so that it lands before the first element
it compares less-or-equal to (boolean comparator). -/
def insertLe (le : α → α → Bool) (x : α) : List α → List α
  | [] => [x]
  | y :: ys => if le x y then x :: y :: ys else y :: insertLe le x ys

/-- Insertion sort with a boolean comparator. -/
def isortLe (le : α → α → Bool) : List α → List α
  | [] => []
  | x :: xs => insertLe le x (isortLe le xs)

theorem perm_insertLe (le : α → α → Bool) (x : α) :
    ∀ l : List α, (insertLe le x l).Perm (x :: l)
  | [] => List.Perm.refl _
  | y :: ys => by
    unfold insertLe
    by_cases h : le x y = true
    · rw [if_pos h]
    · simp only [h, Bool.false_eq_true, if_false]
      exact ((perm_insertLe le x ys).cons y).trans (List.Perm.swap x y ys)

theorem perm_isortLe (le : α → α → Bool) : ∀ l : List α, (isortLe le l).Perm l
  | [] => List.Perm.refl _
  | x :: xs => (perm_insertLe le x (isortLe le xs)).trans ((perm_isortLe le xs).cons x)

theorem pairwise_insertLe (le : α → α → Bool)
    (htrans : ∀ a b c, le a b = true → le b c = true → le a c = true)
    (htot : ∀ a b, le a b = false → le b a = true) (x : α) :
    ∀ l : List α, l.Pairwise (fun a b => le a b = true) →
      (insertLe le x l).Pairwise (fun a b => le a b = true)
  | [], _ => by simp [insertLe]
  | y :: ys, hp => by
    rw [List.pairwise_cons] at hp
    obtain ⟨hy, hys⟩ := hp
    unfold insertLe
    by_cases h : le x y = true
    · rw [if_pos h]
      refine List.Pairwise.cons ?_ (List.Pairwise.cons hy hys)
      intro z hz
      rcases List.mem_cons.mp hz with rfl | hz2
      · exact h
      · exact htrans _ _ _ h (hy z hz2)
    · have h2 : le x y = false := Bool.eq_false_iff.mpr h
      simp only [h2, Bool.false_eq_true, if_false]
      refine List.Pairwise.cons ?_ (pairwise_insertLe le htrans htot x ys hys)
      intro z hz
      have hz2 : z ∈ x :: ys := (perm_insertLe le x ys).mem_iff.mp hz
      rcases List.mem_cons.mp hz2 with hzx | hz3
      · rw [hzx]
        exact htot x y h2
      · exact hy z hz3

theorem pairwise_isortLe (le : α → α → Bool)
    (htrans : ∀ a b c, le a b = true → le b c = true → le a c = true)
    (htot : ∀ a b, le a b = false → le b a = true) :
    ∀ l : List α, (isortLe le l).Pairwise (fun a b => le a b = true)
  | [] => List.Pairwise.nil
  | x :: xs =>
    pairwise_insertLe le htrans htot x (isortLe le xs)
      (pairwise_isortLe le htrans htot xs)

/-- In a list that is pairwise ordered by s, if x and y are members with
r x y for a relation r that is asymmetric and incompatible with the reverse
of s, then x occurs strictly before y: the two-element list is a sublist. -/
theorem sublist_pair_of_rel (r s : α → α → Prop) (hasym : ∀ a b, r a b → ¬ r b a)
    (hcompat : ∀ a b, s a b → ¬ r b a) :
    ∀ l : List α, l.Pairwise s → ∀ x y, x ∈ l → y ∈ l → r x y → [x, y].Sublist l
  | [], _, _, _, hx, _, _ => absurd hx (List.not_mem_nil _)
  | h :: t, hp, x, y, hx, hy, hr => by
    rw [List.pairwise_cons] at hp
    obtain ⟨hh, ht⟩ := hp
    rcases List.mem_cons.mp hx with rfl | hxt
    · have hyt : y ∈ t := by
        rcases List.mem_cons.mp hy with rfl | hyt
        · exact absurd hr (hasym y y hr)
        · exact hyt
      exact (List.singleton_sublist.mpr hyt).cons₂ x
    · rcases List.mem_cons.mp hy with rfl | hyt
      · exact absurd hr (hcompat y x (hh x hxt))
      · exact (sublist_pair_of_rel r s hasym hcompat t ht x y hxt hyt hr).cons h

end SortLib

section LexOrder

/-- Strict lexicographic comparison on a pair whose first component is a
rational, given a strict comparison on the second component. -/
def lexCons {β : Type} (lt : β → β → Prop) (p q : ℚ × β) : Prop :=
  p.1 < q.1 ∨ (p.1 = q.1 ∧ lt p.2 q.2)

theorem lexCons_asymm {β : Type} (lt : β → β → Prop)
    (h : ∀ x y : β, lt x y → ¬ lt y x) :
    ∀ p q, lexCons lt p q → ¬ lexCons lt q p := by
  rintro p q (h1 | ⟨e1, h1⟩) (h2 | ⟨e2, h2⟩)
  · exact absurd h2 (lt_asymm h1)
  · exact absurd h1 (by rw [e2]; exact lt_irrefl _)
  · exact absurd h2 (by rw [e1]; exact lt_irrefl _)
  · exact h _ _ h1 h2

theorem lexCons_trans {β : Type} (lt : β → β → Prop)
    (ht : ∀ x y z : β, lt x y → lt y z → lt x z) :
    ∀ p q r, lexCons lt p q → lexCons lt q r → lexCons lt p r := by
  rintro p q r (h1 | ⟨e1, h1⟩) (h2 | ⟨e2, h2⟩)
  · exact Or.inl (lt_trans h1 h2)
  · exact Or.inl (e2 ▸ h1)
  · exact Or.inl (e1 ▸ h2)
  · exact Or.inr ⟨e1.trans e2, ht _ _ _ h1 h2⟩

theorem lexCons_connex {β : Type} (lt : β → β → Prop)
    (hc : ∀ x y : β, ¬ lt x y → ¬ lt y x → x = y) :
    ∀ p q, ¬ lexCons lt p q → ¬ lexCons lt q p → p = q := by
  intro p q h1 h2
  have e : p.1 = q.1 :=
    le_antisymm (not_lt.mp fun h => h2 (Or.inl h)) (not_lt.mp fun h => h1 (Or.inl h))
  have e2 : p.2 = q.2 :=
    hc _ _ (fun hl => h1 (Or.inr ⟨e, hl⟩)) (fun hl => h2 (Or.inr ⟨e.symm, hl⟩))
  exact Prod.ext e e2

/-- Strict comparison on rationals, named so that nested lexicographic
orders elaborate without metavariables. -/
def qLt (a b : ℚ) : Prop := a < b

/-- Strict lexicographic order on pairs of rationals. -/
def lex2Lt : ℚ × ℚ → ℚ × ℚ → Prop := lexCons qLt

/-- Strict lexicographic order on triples of rationals. -/
def lex3Lt : ℚ × (ℚ × ℚ) → ℚ × (ℚ × ℚ) → Prop := lexCons lex2Lt

/-- Strict lexicographic order on quadruples of rationals. -/
def lex4Lt : ℚ × (ℚ × (ℚ × ℚ)) → ℚ × (ℚ × (ℚ × ℚ)) → Prop := lexCons lex3Lt

theorem qLt_asymm : ∀ x y : ℚ, qLt x y → ¬ qLt y x := fun _ _ h => lt_asymm h

theorem qLt_trans : ∀ x y z : ℚ, qLt x y → qLt y z → qLt x z :=
  fun _ _ _ a b => lt_trans a b

theorem qLt_connex : ∀ x y : ℚ, ¬ qLt x y → ¬ qLt y x → x = y :=
  fun _ _ h1 h2 => le_antisymm (not_lt.mp h2) (not_lt.mp h1)

theorem lex2Lt_asymm : ∀ p q, lex2Lt p q → ¬ lex2Lt q p :=
  lexCons_asymm qLt qLt_asymm

theorem lex2Lt_trans : ∀ p q r, lex2Lt p q → lex2Lt q r → lex2Lt p r :=
  lexCons_trans qLt qLt_trans

theorem lex2Lt_connex : ∀ p q, ¬ lex2Lt p q → ¬ lex2Lt q p → p = q :=
  lexCons_connex qLt qLt_connex

theorem lex3Lt_asymm : ∀ p q, lex3Lt p q → ¬ lex3Lt q p :=
  lexCons_asymm lex2Lt lex2Lt_asymm

theorem lex3Lt_trans : ∀ p q r, lex3Lt p q → lex3Lt q r → lex3Lt p r :=
  lexCons_trans lex2Lt lex2Lt_trans

theorem lex3Lt_connex : ∀ p q, ¬ lex3Lt p q → ¬ lex3Lt q p → p = q :=
  lexCons_connex lex2Lt lex2Lt_connex

theorem lex4Lt_asymm {p q : ℚ × (ℚ × (ℚ × ℚ))} : lex4Lt p q → ¬ lex4Lt q p :=
  lexCons_asymm lex3Lt lex3Lt_asymm p q

theorem lex4Lt_trans {p q r : ℚ × (ℚ × (ℚ × ℚ))} :
    lex4Lt p q → lex4Lt q r → lex4Lt p r :=
  lexCons_trans lex3Lt lex3Lt_trans p q r

theorem lex4Lt_connex {p q : ℚ × (ℚ × (ℚ × ℚ))} :
    ¬ lex4Lt p q → ¬ lex4Lt q p → p = q :=
  lexCons_connex lex3Lt lex3Lt_connex p q

theorem lex4Lt_irrefl (p : ℚ × (ℚ × (ℚ × ℚ))) : ¬ lex4Lt p p :=
  fun h => lex4Lt_asymm h h

/-- Improving the first component of the smaller side preserves a strict
lexicographic comparison. -/
theorem lex4Lt_mono_first {p p2 q : ℚ × (ℚ × (ℚ × ℚ))}
    (h : lex4Lt p q) (hlt : p2.1 < p.1) : lex4Lt p2 q := by
  rcases h with h1 | ⟨e1, _⟩
  · exact Or.inl (lt_trans hlt h1)
  · exact Or.inl (e1 ▸ hlt)

end LexOrder

/-- Meal record as described by the data model: identifier, cuisine and
category strings, nutrition facts, optional average rating (absent treated
as 0 by consumers), popularity counter and tags used for dietary
restrictions. -/
structure Meal where
  mealId : ℕ
  cuisine : String
  category : String
  calories : Frac
  protein : Frac
  averageRating : Option Frac
  popularity : ℕ
  tags : List String

/-- Per-user nutrition goal: target calories and protein plus dietary
restriction tags. -/
structure NutritionGoal where
  calories : Frac
  protein : Frac
  restrictions : List String

/-- Error taxonomy of the ranking engine: caller misuse versus malformed
upstream ML data. -/
inductive RankError where
  | invalidInput : RankError
  | inconsistentScore : RankError
deriving DecidableEq

/-- Output entry of the ranking engine: the meal together with its composite
score and the score breakdown. -/
structure RankedItem where
  meal : Meal
  compositeScore : Frac
  ratingComponent : Frac
  popularityComponent : Frac
  nutritionFitComponent : Option Frac
  mlComponent : Option Frac

/-- Result of the ranking engine: the ordered items plus the degraded-mode
flag telling the caller whether ML scoring was unavailable. -/
structure RankedRecommendation where
  items : List RankedItem
  mlDegraded : Bool

/-- Rating value of a meal, treating an absent rating as 0. -/
def ratingValue (m : Meal) : Frac := m.averageRating.getD Frac.zero

/-- Modelled from the spec: ratingComponent is averageRating divided by 5,
with 0 when the rating is absent. -/
def ratingComponentOf (m : Meal) : Frac := Frac.div (ratingValue m) (Frac.ofNat 5)

/-- Modelled from the spec: the spec uses the transcendental map log1p only
to normalise popularity monotonically; since no claim depends on its exact
values, it is modelled by the strictly monotone embedding of naturals into
fractions, which also sends 0 to 0. -/
def log1p (n : ℕ) : Frac := Frac.ofNat n

/-- Modelled from the spec: popularityComponent is log1p of the meal
popularity divided by log1p of the maximal popularity in the candidate set,
with a denominator floor of 1. -/
def popularityComponentOf (maxPop : ℕ) (m : Meal) : Frac :=
  Frac.div (log1p m.popularity) (Frac.maxF (log1p maxPop) Frac.one)

/-- Clamp a value into the unit interval. -/
def clamp01 (f : Frac) : Frac := Frac.maxF Frac.zero (Frac.minF Frac.one f)

/-- Modelled from the spec: one nutrition fit term,
1 - min(1, abs(actual - target) / target). -/
def fitTerm (target actual : Frac) : Frac :=
  Frac.sub Frac.one (Frac.minF Frac.one (Frac.div (Frac.absF (Frac.sub actual target)) target))

/-- Modelled from the spec: nutritionFitComponent averages the calorie fit
term and the protein fit term, both clamped to the unit interval. -/
def nutritionFitOf (g : NutritionGoal) (m : Meal) : Frac :=
  Frac.div
    (Frac.add (clamp01 (fitTerm g.calories m.calories))
      (clamp01 (fitTerm g.protein m.protein)))
    (Frac.ofNat 2)

/-- Nutrition fit component when a goal is present, absent otherwise. -/
def nutritionOpt (goal : Option NutritionGoal) (m : Meal) : Option Frac :=
  goal.map (fun g => nutritionFitOf g m)

/-- ML score for one meal: absent when the service is down or when the
mapping has no entry for the meal identifier. -/
def mlScoreOf (scores : Option (List (ℕ × Frac))) (m : Meal) : Option Frac :=
  scores.bind (fun l => l.lookup m.mealId)

/-- Base weight of the rating component. -/
def wRating : Frac := ⟨1, 4, by norm_num⟩

/-- Base weight of the popularity component. -/
def wPopularity : Frac := ⟨3, 20, by norm_num⟩

/-- Base weight of the nutrition fit component. -/
def wNutrition : Frac := ⟨1, 4, by norm_num⟩

/-- Base weight of the ML component. -/
def wMl : Frac := ⟨7, 20, by norm_num⟩

/-- Modelled from the spec: sum of the base weights of the components
available for a given meal; unavailable components contribute nothing, so
dividing by this sum renormalises the effective weights to sum to 1. -/
def weightSum (n ml : Option Frac) : Frac :=
  Frac.add (Frac.add (Frac.add wRating wPopularity)
      (if n.isSome then wNutrition else Frac.zero))
    (if ml.isSome then wMl else Frac.zero)

/-- Modelled from the spec: weighted sum of the available components under
the base weights. -/
def weightedRaw (r p : Frac) (n ml : Option Frac) : Frac :=
  Frac.add (Frac.add (Frac.add (Frac.mul wRating r) (Frac.mul wPopularity p))
      (match n with
       | some v => Frac.mul wNutrition v
       | none => Frac.zero))
    (match ml with
     | some v => Frac.mul wMl v
     | none => Frac.zero)

/-- Modelled from the spec: compositeScore is the weighted sum of the
available components divided by the sum of their base weights
(proportional weight redistribution). -/
def compositeOf (maxPop : ℕ) (goal : Option NutritionGoal)
    (scores : Option (List (ℕ × Frac))) (m : Meal) : Frac :=
  Frac.div
    (weightedRaw (ratingComponentOf m) (popularityComponentOf maxPop m)
      (nutritionOpt goal m) (mlScoreOf scores m))
    (weightSum (nutritionOpt goal m) (mlScoreOf scores m))

/-- Modelled from the spec: score one meal, recording the breakdown. -/
def scoreMeal (maxPop : ℕ) (goal : Option NutritionGoal)
    (scores : Option (List (ℕ × Frac))) (m : Meal) : RankedItem :=
  { meal := m
    compositeScore := compositeOf maxPop goal scores m
    ratingComponent := ratingComponentOf m
    popularityComponent := popularityComponentOf maxPop m
    nutritionFitComponent := nutritionOpt goal m
    mlComponent := mlScoreOf scores m }

/-- Modelled from the spec: a present ML score mapping is valid when every
score lies in the unit interval. -/
def mlScoresValid : Option (List (ℕ × Frac)) → Bool
  | none => true
  | some l => l.all (fun p => Frac.leB Frac.zero p.2 && Frac.leB p.2 Frac.one)

/-- Modelled from the spec: a meal violates the dietary restrictions when a
goal is present and one of the meal tags occurs among the goal
restrictions. -/
def violatesRestrictions (goal : Option NutritionGoal) (m : Meal) : Bool :=
  match goal with
  | none => false
  | some g => m.tags.any (fun t => g.restrictions.contains t)

/-- Walk of the deduplication: keep a meal when its identifier has not been
seen yet. -/
def dedupByIdAux (seen : List ℕ) : List Meal → List Meal
  | [] => []
  | m :: ms =>
    if seen.contains m.mealId then dedupByIdAux seen ms
    else m :: dedupByIdAux (m.mealId :: seen) ms

/-- Modelled from the spec: the engine output is deduplicated by meal
identifier; the first occurrence of each identifier is kept. -/
def dedupById (l : List Meal) : List Meal := dedupByIdAux [] l

/-- Modelled from the spec: maximal popularity over the candidate set. -/
def maxPopularity (candidates : List Meal) : ℕ :=
  (candidates.map (fun m => m.popularity)).foldr max 0

/-- Modelled from the spec: candidates eligible for ranking, after
deduplication and the hard dietary-restriction filter. -/
def eligibleMeals (candidates : List Meal) (goal : Option NutritionGoal) : List Meal :=
  (dedupById candidates).filter (fun m => !(violatesRestrictions goal m))

/-- Sort key of a ranked item: compositeScore descending, then averageRating
descending, then popularity descending, then meal identifier ascending; the
descending components are negated so that the lexicographic order is
ascending throughout. -/
def key4 (a : RankedItem) : ℚ × (ℚ × (ℚ × ℚ)) :=
  (-(Frac.toQ a.compositeScore),
   (-(Frac.toQ (ratingValue a.meal)),
    (-((a.meal.popularity : ℚ)), ((a.meal.mealId : ℚ)))))

/-- Modelled from the spec: item a is ranked strictly before item b under the
tie-break order (compositeScore descending, averageRating descending,
popularity descending, meal identifier ascending). -/
def rankBefore (a b : RankedItem) : Prop := lex4Lt (key4 a) (key4 b)

/-- Executable mirror of rankBefore. -/
def rankBeforeB (a b : RankedItem) : Bool :=
  Frac.ltB b.compositeScore a.compositeScore ||
  (Frac.eqB a.compositeScore b.compositeScore &&
    (Frac.ltB (ratingValue b.meal) (ratingValue a.meal) ||
     (Frac.eqB (ratingValue a.meal) (ratingValue b.meal) &&
       (decide (b.meal.popularity < a.meal.popularity) ||
        (decide (a.meal.popularity = b.meal.popularity) &&
         decide (a.meal.mealId < b.meal.mealId))))))

theorem rankBeforeB_iff (a b : RankedItem) : rankBeforeB a b = true ↔ rankBefore a b := by
  simp only [rankBeforeB, rankBefore, lex4Lt, lex3Lt, lex2Lt, qLt, lexCons, key4,
    Bool.or_eq_true, Bool.and_eq_true, Frac.ltB_iff, Frac.eqB_iff, decide_eq_true_iff,
    neg_lt_neg_iff, neg_inj, Nat.cast_lt, Nat.cast_inj]

theorem rankBefore_asymm {a b : RankedItem} : rankBefore a b → ¬ rankBefore b a :=
  lex4Lt_asymm

theorem rankBefore_trans {a b c : RankedItem} :
    rankBefore a b → rankBefore b c → rankBefore a c :=
  lex4Lt_trans

theorem rankBefore_irrefl (a : RankedItem) : ¬ rankBefore a a :=
  fun h => lex4Lt_asymm h h

theorem key4_eq_of_not {a b : RankedItem} :
    ¬ rankBefore a b → ¬ rankBefore b a → key4 a = key4 b :=
  lex4Lt_connex

theorem mealId_eq_of_key4_eq {a b : RankedItem} (h : key4 a = key4 b) :
    a.meal.mealId = b.meal.mealId := by
  have h4 := congrArg (fun p : ℚ × (ℚ × (ℚ × ℚ)) => p.2.2.2) h
  simpa [key4, Nat.cast_inj] using h4

theorem rankBefore_total_of_ne {a b : RankedItem}
    (h : a.meal.mealId ≠ b.meal.mealId) : rankBefore a b ∨ rankBefore b a := by
  by_contra hc
  push_neg at hc
  exact h (mealId_eq_of_key4_eq (key4_eq_of_not hc.1 hc.2))

instance : IsAntisymm RankedItem rankBefore :=
  ⟨fun _ _ h h2 => absurd h2 (rankBefore_asymm h)⟩

/-- Boolean comparator used for sorting: a may stay before b when b is not
ranked strictly before a. -/
def itemLe (a b : RankedItem) : Bool := ! rankBeforeB b a

theorem itemLe_iff {a b : RankedItem} : itemLe a b = true ↔ ¬ rankBefore b a := by
  constructor
  · intro h hr
    have hb := (rankBeforeB_iff b a).mpr hr
    simp [itemLe, hb] at h
  · intro h
    have hb : rankBeforeB b a = false := by
      cases hb : rankBeforeB b a
      · rfl
      · exact absurd ((rankBeforeB_iff b a).mp hb) h
    simp [itemLe, hb]

theorem itemLe_total : ∀ a b, itemLe a b = false → itemLe b a = true := by
  intro a b h
  have hb : rankBeforeB b a = true := by
    cases hb : rankBeforeB b a
    · simp [itemLe, hb] at h
    · rfl
  have hr := (rankBeforeB_iff b a).mp hb
  exact itemLe_iff.mpr (rankBefore_asymm hr)

theorem itemLe_trans : ∀ a b c, itemLe a b = true → itemLe b c = true →
    itemLe a c = true := by
  intro a b c hab hbc
  have h1 : ¬ rankBefore b a := itemLe_iff.mp hab
  have h2 : ¬ rankBefore c b := itemLe_iff.mp hbc
  refine itemLe_iff.mpr ?_
  intro hca
  by_cases h3 : rankBefore b c
  · exact h1 (rankBefore_trans h3 hca)
  · have hk : key4 b = key4 c := key4_eq_of_not h3 h2
    have : rankBefore b a := by
      unfold rankBefore
      rw [hk]
      exact hca
    exact h1 this

/-- Modelled from the spec: sort the scored items by the tie-break order. -/
def sortItems (l : List RankedItem) : List RankedItem := isortLe itemLe l

theorem sortItems_perm (l : List RankedItem) : (sortItems l).Perm l :=
  perm_isortLe itemLe l

theorem sortItems_pairwise (l : List RankedItem) :
    (sortItems l).Pairwise (fun a b => ¬ rankBefore b a) :=
  (pairwise_isortLe itemLe itemLe_trans itemLe_total l).imp
    (fun h => itemLe_iff.mp h)

theorem sortItems_pairwise_strict (l : List RankedItem)
    (h : (l.map (fun it => it.meal.mealId)).Nodup) :
    (sortItems l).Pairwise rankBefore := by
  have hperm : (sortItems l).Perm l := sortItems_perm l
  have hn : ((sortItems l).map (fun it => it.meal.mealId)).Nodup :=
    ((hperm.map _).nodup_iff).mpr h
  have hne : (sortItems l).Pairwise
      (fun a b => a.meal.mealId ≠ b.meal.mealId) := by
    rw [List.Nodup, List.pairwise_map] at hn
    exact hn
  exact ((sortItems_pairwise l).and hne).imp
    (fun hab => (rankBefore_total_of_ne hab.2).resolve_right hab.1)

/-- Cuisines of the last k selected items. -/
def recentCuisines (k : ℕ) (sel : List RankedItem) : List String :=
  (sel.drop (sel.length - k)).map (fun it => it.meal.cuisine)

/-- Scan a queue for the first item whose cuisine is not among the recent
cuisines; return the chosen item, the skipped prefix and the remainder. -/
def findFirstOk (recent : List String) :
    List RankedItem → Option (RankedItem × List RankedItem × List RankedItem)
  | [] => none
  | x :: xs =>
    if recent.contains x.meal.cuisine then
      match findFirstOk recent xs with
      | none => none
      | some (c, sk, rest) => some (c, x :: sk, rest)
    else some (x, [], xs)

theorem findFirstOk_eq (recent : List String) :
    ∀ q c sk rest, findFirstOk recent q = some (c, sk, rest) →
      q = sk ++ c :: rest
  | [], _, _, _, h => by simp [findFirstOk] at h
  | x :: xs, c, sk, rest, h => by
    unfold findFirstOk at h
    by_cases hc : recent.contains x.meal.cuisine = true
    · rw [if_pos hc] at h
      cases hf : findFirstOk recent xs with
      | none =>
        rw [hf] at h
        exact absurd h (by simp)
      | some t =>
        obtain ⟨c2, sk2, rest2⟩ := t
        rw [hf] at h
        simp only [Option.some.injEq, Prod.mk.injEq] at h
        obtain ⟨hc2, hsk, hrest⟩ := h
        have hxs := findFirstOk_eq recent xs c2 sk2 rest2 hf
        rw [← hsk, ← hc2, ← hrest, hxs]
        rfl
    · rw [if_neg hc] at h
      simp only [Option.some.injEq, Prod.mk.injEq] at h
      obtain ⟨hc2, hsk, hrest⟩ := h
      rw [← hsk, ← hc2, ← hrest]
      rfl

/-- Modelled from the spec: one greedy selection loop of the diversity pass.
At each step the first queue item whose cuisine is not among the cuisines of
the last k selected items is selected and the skipped prefix is deferred to
the end of the queue; when every queued item violates the diversity window,
the head is selected anyway so that the pass never starves (safety valve).
The loop stops when limit items are selected or the queue is exhausted; the
fuel argument bounds the recursion and is instantiated with the queue
length. -/
def diversityGo (limit k : ℕ) : ℕ → List RankedItem → List RankedItem → List RankedItem
  | 0, sel, _ => sel
  | _ + 1, sel, [] => sel
  | fuel + 1, sel, x :: xs =>
    if limit ≤ sel.length then sel
    else
      match findFirstOk (recentCuisines k sel) (x :: xs) with
      | some (c, sk, rest) => diversityGo limit k fuel (sel ++ [c]) (rest ++ sk)
      | none => diversityGo limit k fuel (sel ++ [x]) xs

theorem queue_perm_of_findFirstOk {recent : List String}
    {c : RankedItem} {queue sk rest : List RankedItem}
    (hf : findFirstOk recent queue = some (c, sk, rest)) (sel : List RankedItem) :
    ((sel ++ [c]) ++ (rest ++ sk)).Perm (sel ++ queue) := by
  have hsplit := findFirstOk_eq _ _ _ _ _ hf
  rw [hsplit, List.append_assoc, List.singleton_append]
  exact List.Perm.append_left sel
    ((List.Perm.cons c List.perm_append_comm).trans List.perm_middle.symm)

theorem length_of_findFirstOk {recent : List String}
    {c : RankedItem} {queue sk rest : List RankedItem}
    (hf : findFirstOk recent queue = some (c, sk, rest)) :
    sk.length + rest.length + 1 = queue.length := by
  have := congrArg List.length (findFirstOk_eq _ _ _ _ _ hf)
  simp only [List.length_append, List.length_cons] at this
  omega

theorem diversityGo_length (limit k : ℕ) :
    ∀ fuel sel queue, queue.length ≤ fuel → sel.length ≤ limit →
      (diversityGo limit k fuel sel queue).length =
        min limit (sel.length + queue.length)
  | 0, sel, queue, hq, hsel => by
    have : queue = [] := List.eq_nil_of_length_eq_zero (Nat.le_zero.mp hq)
    subst this
    simp [diversityGo, Nat.min_eq_right hsel]
  | _ + 1, sel, [], _, hsel => by
    simp [diversityGo, Nat.min_eq_right hsel]
  | fuel + 1, sel, x :: xs, hq, hsel => by
    rw [diversityGo]
    by_cases hg : limit ≤ sel.length
    · rw [if_pos hg]
      have he : sel.length = limit := le_antisymm hsel hg
      rw [he]
      exact (Nat.min_eq_left (by omega)).symm
    · rw [if_neg hg]
      have hlt : sel.length < limit := lt_of_not_le hg
      have hq2 : xs.length ≤ fuel := by
        simp only [List.length_cons] at hq
        omega
      cases hf : findFirstOk (recentCuisines k sel) (x :: xs) with
      | some t =>
        obtain ⟨c, sk, rest⟩ := t
        have hlen := length_of_findFirstOk hf
        simp only [List.length_cons] at hlen
        have h1 : (rest ++ sk).length ≤ fuel := by
          simp only [List.length_append]
          omega
        have h2 : (sel ++ [c]).length ≤ limit := by
          simp only [List.length_append, List.length_cons, List.length_nil]
          omega
        rw [diversityGo_length limit k fuel (sel ++ [c]) (rest ++ sk) h1 h2]
        simp only [List.length_append, List.length_cons, List.length_nil]
        congr 1
        omega
      | none =>
        have h2 : (sel ++ [x]).length ≤ limit := by
          simp only [List.length_append, List.length_cons, List.length_nil]
          omega
        rw [diversityGo_length limit k fuel (sel ++ [x]) xs hq2 h2]
        simp only [List.length_append, List.length_cons, List.length_nil]
        congr 1
        omega

theorem diversityGo_subperm (limit k : ℕ) :
    ∀ fuel sel queue, (diversityGo limit k fuel sel queue).Subperm (sel ++ queue)
  | 0, sel, queue => (List.sublist_append_left sel queue).subperm
  | _ + 1, sel, [] => (List.sublist_append_left sel []).subperm
  | fuel + 1, sel, x :: xs => by
    rw [diversityGo]
    by_cases hg : limit ≤ sel.length
    · rw [if_pos hg]
      exact (List.sublist_append_left sel (x :: xs)).subperm
    · rw [if_neg hg]
      cases hf : findFirstOk (recentCuisines k sel) (x :: xs) with
      | some t =>
        obtain ⟨c, sk, rest⟩ := t
        exact (diversityGo_subperm limit k fuel (sel ++ [c]) (rest ++ sk)).trans
          (queue_perm_of_findFirstOk hf sel).subperm
      | none =>
        have heq : (sel ++ [x]) ++ xs = sel ++ x :: xs := by
          rw [List.append_assoc, List.singleton_append]
        have := diversityGo_subperm limit k fuel (sel ++ [x]) xs
        rw [heq] at this
        exact this

theorem diversityGo_perm (limit k : ℕ) :
    ∀ fuel sel queue, queue.length ≤ fuel →
      sel.length + queue.length ≤ limit →
      (diversityGo limit k fuel sel queue).Perm (sel ++ queue)
  | 0, sel, queue, hq, _ => by
    have : queue = [] := List.eq_nil_of_length_eq_zero (Nat.le_zero.mp hq)
    subst this
    simp [diversityGo]
  | _ + 1, sel, [], _, _ => by simp [diversityGo]
  | fuel + 1, sel, x :: xs, hq, hfit => by
    rw [diversityGo]
    have hg : ¬ limit ≤ sel.length := by
      simp only [List.length_cons] at hfit
      omega
    rw [if_neg hg]
    have hq2 : xs.length ≤ fuel := by
      simp only [List.length_cons] at hq
      omega
    cases hf : findFirstOk (recentCuisines k sel) (x :: xs) with
    | some t =>
      obtain ⟨c, sk, rest⟩ := t
      have hlen := length_of_findFirstOk hf
      simp only [List.length_cons] at hlen
      have h1 : (rest ++ sk).length ≤ fuel := by
        simp only [List.length_append]
        omega
      have h2 : (sel ++ [c]).length + (rest ++ sk).length ≤ limit := by
        simp only [List.length_append, List.length_cons, List.length_nil] at hfit ⊢
        omega
      exact (diversityGo_perm limit k fuel (sel ++ [c]) (rest ++ sk) h1 h2).trans
        (queue_perm_of_findFirstOk hf sel)
    | none =>
      have h2 : (sel ++ [x]).length + xs.length ≤ limit := by
        simp only [List.length_append, List.length_cons, List.length_nil] at hfit ⊢
        omega
      have heq : (sel ++ [x]) ++ xs = sel ++ x :: xs := by
        rw [List.append_assoc, List.singleton_append]
      have := diversityGo_perm limit k fuel (sel ++ [x]) xs hq2 h2
      rw [heq] at this
      exact this

/-- Modelled from the spec: the diversity pass is a greedy re-ranking over
the top 3 times limit sorted candidates with a recency window of
max(1, limit / 3) cuisines. -/
def diversityPass (limit : ℕ) (sorted : List RankedItem) : List RankedItem :=
  diversityGo limit (max 1 (limit / 3)) (sorted.take (3 * limit)).length []
    (sorted.take (3 * limit))

/-- Scored and sorted eligible candidates of one ranking request. -/
def rankItems (candidates : List Meal) (goal : Option NutritionGoal)
    (scores : Option (List (ℕ × Frac))) : List RankedItem :=
  sortItems ((eligibleMeals candidates goal).map
    (scoreMeal (maxPopularity candidates) goal scores))

/-- Modelled from the spec: the ranking engine.  Fails with InvalidInput on
caller misuse (empty candidates or non-positive limit), fails with
InconsistentScore when a present ML score lies outside the unit interval,
and otherwise returns the diversity-adjusted ranking together with the
degraded-mode flag recording whether the ML score mapping was absent. -/
def rank (candidates : List Meal) (goal : Option NutritionGoal)
    (scores : Option (List (ℕ × Frac))) (limit : ℤ) :
    Except RankError RankedRecommendation :=
  if candidates.isEmpty ∨ limit ≤ 0 then .error .invalidInput
  else if mlScoresValid scores then
    .ok { items := diversityPass limit.toNat (rankItems candidates goal scores)
          mlDegraded := scores.isNone }
  else .error .inconsistentScore

/-- Meal identifiers of the ranking output, in order; empty on error. -/
def rankIds (candidates : List Meal) (goal : Option NutritionGoal)
    (scores : Option (List (ℕ × Frac))) (limit : ℤ) : List ℕ :=
  match rank candidates goal scores limit with
  | .ok r => r.items.map (fun it => it.meal.mealId)
  | .error _ => []

@[simp] theorem scoreMeal_meal (maxPop : ℕ) (goal : Option NutritionGoal)
    (scores : Option (List (ℕ × Frac))) (m : Meal) :
    (scoreMeal maxPop goal scores m).meal = m := rfl

theorem dedupByIdAux_sublist (seen : List ℕ) :
    ∀ l : List Meal, (dedupByIdAux seen l).Sublist l := by
  intro l
  induction l generalizing seen with
  | nil => exact List.Sublist.refl _
  | cons m ms ih =>
    rw [dedupByIdAux]
    by_cases h : seen.contains m.mealId = true
    · rw [if_pos h]
      exact (ih seen).cons m
    · rw [if_neg h]
      exact (ih (m.mealId :: seen)).cons₂ m

theorem dedupById_sublist (l : List Meal) : (dedupById l).Sublist l :=
  dedupByIdAux_sublist [] l

theorem dedupByIdAux_nodup (seen : List ℕ) :
    ∀ l : List Meal,
      ((dedupByIdAux seen l).map (fun m => m.mealId)).Nodup ∧
        ∀ i ∈ (dedupByIdAux seen l).map (fun m => m.mealId), i ∉ seen := by
  intro l
  induction l generalizing seen with
  | nil =>
    exact ⟨List.Pairwise.nil, by simp [dedupByIdAux]⟩
  | cons m ms ih =>
    rw [dedupByIdAux]
    by_cases h : seen.contains m.mealId = true
    · rw [if_pos h]
      exact ih seen
    · rw [if_neg h]
      have hnot : m.mealId ∉ seen := by
        intro hmem
        exact h (List.elem_iff.mpr hmem)
      obtain ⟨ihn, ihs⟩ := ih (m.mealId :: seen)
      simp only [List.map_cons, List.nodup_cons]
      refine ⟨⟨?_, ihn⟩, ?_⟩
      · intro hmem
        exact (ihs _ hmem) (List.mem_cons_self _ _)
      · intro i hi
        rcases List.mem_cons.mp hi with hhd | htl
        · rw [hhd]
          exact hnot
        · intro hseen
          exact (ihs i htl) (List.mem_cons_of_mem _ hseen)

theorem dedupById_nodup (l : List Meal) :
    ((dedupById l).map (fun m => m.mealId)).Nodup :=
  (dedupByIdAux_nodup [] l).1

theorem eligibleMeals_subset (candidates : List Meal) (goal : Option NutritionGoal) :
    eligibleMeals candidates goal ⊆ candidates :=
  fun _ hm =>
    (dedupById_sublist candidates).subset
      ((List.filter_sublist (dedupById candidates)).subset hm)

theorem eligibleMeals_ids_nodup (candidates : List Meal) (goal : Option NutritionGoal) :
    ((eligibleMeals candidates goal).map (fun m => m.mealId)).Nodup :=
  List.Nodup.sublist
    ((List.filter_sublist (dedupById candidates)).map (fun m => m.mealId))
    (dedupById_nodup candidates)

/-- Inversion of a successful ranking call: the returned record is built from
the diversity pass over the sorted eligible candidates, and the degraded
flag records absence of the ML score mapping. -/
theorem rank_ok_inv {candidates : List Meal} {goal : Option NutritionGoal}
    {scores : Option (List (ℕ × Frac))} {limit : ℤ} {r : RankedRecommendation}
    (h : rank candidates goal scores limit = .ok r) :
    r.items = diversityPass limit.toNat (rankItems candidates goal scores) ∧
    r.mlDegraded = scores.isNone := by
  unfold rank at h
  by_cases h1 : candidates.isEmpty = true ∨ limit ≤ 0
  · rw [if_pos h1] at h
    exact absurd h (by simp)
  · rw [if_neg h1] at h
    by_cases h2 : mlScoresValid scores = true
    · rw [if_pos h2] at h
      injection h with h3
      rw [← h3]
      exact ⟨rfl, rfl⟩
    · rw [if_neg h2] at h
      exact absurd h (by simp)

/-- Every output item of a successful ranking call is the scoring of some
eligible candidate. -/
theorem mem_rank_items {candidates : List Meal} {goal : Option NutritionGoal}
    {scores : Option (List (ℕ × Frac))} {limit : ℤ} {r : RankedRecommendation}
    (h : rank candidates goal scores limit = .ok r) :
    ∀ it ∈ r.items, ∃ m ∈ eligibleMeals candidates goal,
      it = scoreMeal (maxPopularity candidates) goal scores m := by
  intro it hit
  rw [(rank_ok_inv h).1] at hit
  have hsub : (diversityPass limit.toNat (rankItems candidates goal scores)).Subperm
      (rankItems candidates goal scores) := by
    unfold diversityPass
    have := diversityGo_subperm limit.toNat (max 1 (limit.toNat / 3))
      ((rankItems candidates goal scores).take (3 * limit.toNat)).length []
      ((rankItems candidates goal scores).take (3 * limit.toNat))
    rw [List.nil_append] at this
    exact this.trans (List.take_sublist _ _).subperm
  have hit2 : it ∈ rankItems candidates goal scores := hsub.subset hit
  have hit3 : it ∈ (eligibleMeals candidates goal).map
      (scoreMeal (maxPopularity candidates) goal scores) :=
    (sortItems_perm _).subset hit2
  obtain ⟨m, hm, hms⟩ := List.mem_map.mp hit3
  exact ⟨m, hm, hms.symm⟩

namespace Home

/-- Key implicitly used by the featured-meals comparator of the Home page:
the plain sum of averageRating and popularity, absent fields read as 0. -/
def featuredKey (m : Meal) : ℚ := Frac.toQ (ratingValue m) + m.popularity

/-- Comparator of the featured-meals sort on the Home page, exactly as in
the source: (b.averageRating or 0) - (a.averageRating or 0)
+ (b.popularity or 0) - (a.popularity or 0). -/
def homeCompare (a b : Meal) : Frac :=
  Frac.sub
    (Frac.add (Frac.sub (ratingValue b) (ratingValue a)) (Frac.ofNat b.popularity))
    (Frac.ofNat a.popularity)

/-- Boolean comparator derived from homeCompare: a may stay before b when
the comparator value is nonpositive. -/
def homeLe (a b : Meal) : Bool := Frac.leB (homeCompare a b) Frac.zero

/-- Sorted meal list of the Home page featured computation. -/
def sortHome (meals : List Meal) : List Meal := isortLe homeLe meals

/-- Featured meals of the Home page: the sorted list cut to six entries. -/
def featuredMeals (meals : List Meal) : List Meal := (sortHome meals).take 6

/-- Accumulated rating sum of the stats computation (reduce with
meal.averageRating or 0, starting from 0). -/
def totalRating (meals : List Meal) : Frac :=
  meals.foldl (fun acc m => Frac.add acc (ratingValue m)) Frac.zero

/-- Division as in the page script: dividing by zero yields the
not-a-number marker, modelled by the absent value. -/
def jsDiv (a b : Frac) : Option Frac :=
  if Frac.eqB b Frac.zero then none else some (Frac.div a b)

/-- The or-zero fallback of the page script: falsy values (absent marker or
zero) become 0. -/
def jsOrZero : Option Frac → Frac
  | none => Frac.zero
  | some v => if Frac.eqB v Frac.zero then Frac.zero else v

/-- Stats averageRating of the Home page: rating sum divided by the meal
count, with the or-zero fallback. -/
def statsAverageRating (meals : List Meal) : Frac :=
  jsOrZero (jsDiv (totalRating meals) (Frac.ofNat meals.length))

theorem toQ_homeCompare (a b : Meal) :
    Frac.toQ (homeCompare a b) = featuredKey b - featuredKey a := by
  simp only [homeCompare, featuredKey, Frac.toQ_sub, Frac.toQ_add, Frac.toQ_ofNat]
  ring

theorem homeLe_iff {a b : Meal} :
    homeLe a b = true ↔ featuredKey b ≤ featuredKey a := by
  unfold homeLe
  rw [Frac.leB_iff, toQ_homeCompare, Frac.toQ_zero, sub_nonpos]

theorem homeLe_total : ∀ a b, homeLe a b = false → homeLe b a = true := by
  intro a b h
  have h2 : ¬ featuredKey b ≤ featuredKey a := by
    intro hle
    rw [← homeLe_iff] at hle
    rw [hle] at h
    simp at h
  exact homeLe_iff.mpr (le_of_lt (lt_of_not_le h2))

theorem homeLe_trans : ∀ a b c, homeLe a b = true → homeLe b c = true →
    homeLe a c = true := by
  intro a b c hab hbc
  exact homeLe_iff.mpr (le_trans (homeLe_iff.mp hbc) (homeLe_iff.mp hab))

theorem sortHome_perm (meals : List Meal) : (sortHome meals).Perm meals :=
  perm_isortLe homeLe meals

theorem sortHome_pairwise (meals : List Meal) :
    (sortHome meals).Pairwise (fun a b => featuredKey b ≤ featuredKey a) :=
  (pairwise_isortLe homeLe homeLe_trans homeLe_total meals).imp
    (fun h => homeLe_iff.mp h)

theorem toQ_totalRating (meals : List Meal) :
    Frac.toQ (totalRating meals) =
      (meals.map (fun m => Frac.toQ (ratingValue m))).sum := by
  have hgen : ∀ (l : List Meal) (acc : Frac),
      Frac.toQ (l.foldl (fun a m => Frac.add a (ratingValue m)) acc) =
        Frac.toQ acc + (l.map (fun m => Frac.toQ (ratingValue m))).sum := by
    intro l
    induction l with
    | nil => intro acc; simp
    | cons m ms ih =>
      intro acc
      simp only [List.foldl_cons, List.map_cons, List.sum_cons, ih, Frac.toQ_add]
      ring
  unfold totalRating
  rw [hgen]
  simp

end Home

/-- Meal obtained by replacing the average rating and keeping every other
field. -/
def raiseRating (m : Meal) (f : Frac) : Meal := { m with averageRating := some f }

theorem weightSum_pos (n ml : Option Frac) : 0 < Frac.toQ (weightSum n ml) := by
  have h1 : Frac.toQ (weightSum n ml) =
      Frac.toQ wRating + Frac.toQ wPopularity +
        Frac.toQ (if n.isSome then wNutrition else Frac.zero) +
        Frac.toQ (if ml.isSome then wMl else Frac.zero) := by
    simp [weightSum]
  have h2 : (0:ℚ) ≤ Frac.toQ (if n.isSome then wNutrition else Frac.zero) := by
    cases n <;> norm_num [Frac.toQ, wNutrition, Frac.zero]
  have h3 : (0:ℚ) ≤ Frac.toQ (if ml.isSome then wMl else Frac.zero) := by
    cases ml <;> norm_num [Frac.toQ, wMl, Frac.zero]
  have h4 : Frac.toQ wRating = 1/4 := by norm_num [Frac.toQ, wRating]
  have h5 : Frac.toQ wPopularity = 3/20 := by norm_num [Frac.toQ, wPopularity]
  rw [h1, h4, h5]
  linarith

theorem compositeOf_lt_of_rating_lt (maxPop : ℕ) (goal : Option NutritionGoal)
    (scores : Option (List (ℕ × Frac))) (m : Meal) (f : Frac)
    (h : Frac.toQ (ratingValue m) < Frac.toQ f) :
    Frac.toQ (compositeOf maxPop goal scores m) <
      Frac.toQ (compositeOf maxPop goal scores (raiseRating m f)) := by
  have hnut : nutritionOpt goal (raiseRating m f) = nutritionOpt goal m := rfl
  have hml : mlScoreOf scores (raiseRating m f) = mlScoreOf scores m := rfl
  have hpop : popularityComponentOf maxPop (raiseRating m f) =
      popularityComponentOf maxPop m := rfl
  have hrv : ratingValue (raiseRating m f) = f := rfl
  unfold compositeOf
  rw [hnut, hml, hpop, Frac.toQ_div, Frac.toQ_div]
  refine (div_lt_div_iff_of_pos_right (weightSum_pos _ _)).mpr ?_
  have hr : Frac.toQ (ratingComponentOf m) <
      Frac.toQ (ratingComponentOf (raiseRating m f)) := by
    unfold ratingComponentOf
    rw [hrv, Frac.toQ_div, Frac.toQ_div, Frac.toQ_ofNat]
    exact (div_lt_div_iff_of_pos_right (by norm_num)).mpr h
  have hw : (0:ℚ) < Frac.toQ wRating := by norm_num [Frac.toQ, wRating]
  unfold weightedRaw
  simp only [Frac.toQ_add, Frac.toQ_mul]
  have := mul_lt_mul_of_pos_left hr hw
  linarith

theorem rankBefore_raise {maxPop : ℕ} {goal : Option NutritionGoal}
    {scores : Option (List (ℕ × Frac))} {m : Meal} {f : Frac} {b : RankedItem}
    (h : rankBefore (scoreMeal maxPop goal scores m) b)
    (hlt : Frac.toQ (ratingValue m) < Frac.toQ f) :
    rankBefore (scoreMeal maxPop goal scores (raiseRating m f)) b := by
  refine lex4Lt_mono_first h ?_
  simp only [key4, scoreMeal]
  exact neg_lt_neg_iff.mpr (compositeOf_lt_of_rating_lt maxPop goal scores m f hlt)

/-- Concrete meal with the given identifier, cuisine and rating; all other
fields fixed. -/
def plainMeal (i : ℕ) (c : String) (r : Frac) : Meal :=
  { mealId := i, cuisine := c, category := "main", calories := Frac.ofNat 500,
    protein := Frac.ofNat 20, averageRating := some r, popularity := 0, tags := [] }

/-- Diversity scenario of the spec: twenty meals of one cuisine plus two
meals of a second cuisine. -/
def c7meals : List Meal :=
  ((List.range 20).map (fun i => plainMeal (i + 1) "A" (Frac.ofNat 4))) ++
    [plainMeal 21 "B" (Frac.ofNat 5), plainMeal 22 "B" (Frac.ofNat 5)]

/-- Monotonicity scenario: highest meal, same cuisine as the raised meal. -/
def mealTopC : Meal := plainMeal 1 "C" (Frac.ofNat 5)

/-- Monotonicity scenario: the meal whose rating is raised. -/
def mealMidC : Meal := plainMeal 2 "C" ⟨7, 2, by norm_num⟩

/-- Monotonicity scenario: the raised version of mealMidC. -/
def mealMidCRaised : Meal := raiseRating mealMidC ⟨9, 2, by norm_num⟩

/-- Monotonicity scenario: an unrelated meal of a third cuisine. -/
def mealA3 : Meal := plainMeal 3 "A" (Frac.ofNat 4)

/-- Monotonicity scenario: the observer meal whose inputs never change. -/
def mealW4 : Meal := plainMeal 4 "B" (Frac.ofNat 3)

/-- Natural-orientation reading of the tie-break order: compositeScore
descending, then averageRating descending, then popularity descending, then
meal identifier ascending. -/
def tieBreakLt (a b : RankedItem) : Prop :=
  Frac.toQ b.compositeScore < Frac.toQ a.compositeScore ∨
  (Frac.toQ a.compositeScore = Frac.toQ b.compositeScore ∧
    (Frac.toQ (ratingValue b.meal) < Frac.toQ (ratingValue a.meal) ∨
     (Frac.toQ (ratingValue a.meal) = Frac.toQ (ratingValue b.meal) ∧
       (b.meal.popularity < a.meal.popularity ∨
        (a.meal.popularity = b.meal.popularity ∧
         a.meal.mealId < b.meal.mealId)))))

theorem rankBefore_iff_tieBreak (a b : RankedItem) :
    rankBefore a b ↔ tieBreakLt a b := by
  simp only [rankBefore, lex4Lt, lex3Lt, lex2Lt, qLt, lexCons, key4, tieBreakLt,
    neg_lt_neg_iff, neg_inj, Nat.cast_lt, Nat.cast_inj]

/-- C1: for every non-empty candidate sequence and positive limit, a
successful rank call returns at most limit entries, with pairwise distinct
meal identifiers, every entry drawn from the input candidates, and when
fewer eligible candidates than limit exist every eligible candidate appears
in the output (no padding or repetition). -/
theorem claim_C1_rank_output_invariants :
    ∀ (candidates : List Meal) (goal : Option NutritionGoal)
      (scores : Option (List (ℕ × Frac))) (limit : ℤ) (r : RankedRecommendation),
      candidates ≠ [] → 0 < limit →
      rank candidates goal scores limit = .ok r →
      r.items.length ≤ limit.toNat ∧
      (r.items.map (fun it => it.meal.mealId)).Nodup ∧
      (∀ it ∈ r.items, it.meal ∈ candidates) ∧
      ((eligibleMeals candidates goal).length < limit.toNat →
        ∀ m ∈ eligibleMeals candidates goal, ∃ it ∈ r.items, it.meal = m) := by
  intro c g s l r hne hpos hok
  obtain ⟨hitems, _⟩ := rank_ok_inv hok
  have hlen : r.items.length =
      min l.toNat ((rankItems c g s).take (3 * l.toNat)).length := by
    rw [hitems]
    unfold diversityPass
    rw [diversityGo_length l.toNat _ _ [] _ le_rfl (by simp)]
    simp
  have hbn : (((eligibleMeals c g).map (scoreMeal (maxPopularity c) g s)).map
      (fun it => it.meal.mealId)).Nodup := by
    rw [List.map_map]
    exact eligibleMeals_ids_nodup c g
  have hsp : r.items.Subperm
      ((eligibleMeals c g).map (scoreMeal (maxPopularity c) g s)) := by
    rw [hitems]
    unfold diversityPass
    have h1 := diversityGo_subperm l.toNat (max 1 (l.toNat / 3))
      ((rankItems c g s).take (3 * l.toNat)).length []
      ((rankItems c g s).take (3 * l.toNat))
    rw [List.nil_append] at h1
    exact (h1.trans (List.take_sublist _ _).subperm).trans
      (sortItems_perm _).subperm
  refine ⟨?_, ?_, ?_, ?_⟩
  · rw [hlen]
    exact min_le_left _ _
  · obtain ⟨u, hup, hus⟩ := hsp
    have h3 : (u.map (fun it => it.meal.mealId)).Nodup :=
      List.Nodup.sublist (hus.map _) hbn
    exact (hup.map _).nodup h3
  · intro it hit
    obtain ⟨m, hm, rfl⟩ := mem_rank_items hok it hit
    simpa using eligibleMeals_subset c g hm
  · intro hsmall m hm
    have hlen2 : (rankItems c g s).length = (eligibleMeals c g).length := by
      unfold rankItems
      rw [(sortItems_perm _).length_eq, List.length_map]
    have htake : (rankItems c g s).take (3 * l.toNat) = rankItems c g s :=
      List.take_of_length_le (by rw [hlen2]; omega)
    have hperm : r.items.Perm (rankItems c g s) := by
      rw [hitems]
      unfold diversityPass
      rw [htake]
      have h2 := diversityGo_perm l.toNat (max 1 (l.toNat / 3))
        (rankItems c g s).length [] (rankItems c g s) le_rfl
        (by simp only [List.length_nil, Nat.zero_add]; omega)
      rw [List.nil_append] at h2
      exact h2
    have hmem : scoreMeal (maxPopularity c) g s m ∈ r.items := by
      refine hperm.mem_iff.mpr ?_
      refine (sortItems_perm _).mem_iff.mpr ?_
      exact List.mem_map_of_mem _ hm
    exact ⟨_, hmem, rfl⟩

/-- C1 witness: the invariants hold for a concrete successful call with two
candidates and limit 3. -/
theorem claim_C1_witness :
    ([mealTopC, mealW4] ≠ []) ∧ ((0:ℤ) < 3) ∧
    ∃ r, rank [mealTopC, mealW4] none none 3 = .ok r ∧
      (r.items.length ≤ (3:ℤ).toNat ∧
       (r.items.map (fun it => it.meal.mealId)).Nodup ∧
       (∀ it ∈ r.items, it.meal ∈ [mealTopC, mealW4]) ∧
       ((eligibleMeals [mealTopC, mealW4] none).length < (3:ℤ).toNat →
         ∀ m ∈ eligibleMeals [mealTopC, mealW4] none,
           ∃ it ∈ r.items, it.meal = m)) := by
  refine ⟨by simp, by norm_num, ⟨_, rfl, ?_⟩⟩
  exact claim_C1_rank_output_invariants [mealTopC, mealW4] none none 3 _
    (by simp) (by norm_num) rfl

/-- C2: the sorting stage of the engine orders items by compositeScore
descending, ties broken by averageRating descending, then popularity
descending, then meal identifier ascending; it permutes its input, adjacent
items are never strictly out of order, and with pairwise distinct meal
identifiers the output is strictly ordered by the lexicographic key, whence
it is the unique such arrangement of those items. -/
theorem claim_C2_tie_break_order :
    ∀ items : List RankedItem,
      (sortItems items).Perm items ∧
      (sortItems items).Pairwise (fun a b => ¬ rankBefore b a) ∧
      (∀ a b, rankBefore a b ↔ tieBreakLt a b) ∧
      ((items.map (fun it => it.meal.mealId)).Nodup →
        (sortItems items).Pairwise rankBefore ∧
        ∀ t : List RankedItem, t.Perm items → t.Pairwise rankBefore →
          t = sortItems items) := by
  intro items
  refine ⟨sortItems_perm items, sortItems_pairwise items,
    rankBefore_iff_tieBreak, ?_⟩
  intro hnod
  have hstrict := sortItems_pairwise_strict items hnod
  refine ⟨hstrict, ?_⟩
  intro t hperm hsorted
  exact List.eq_of_perm_of_sorted (hperm.trans (sortItems_perm items).symm)
    hsorted hstrict

/-- C2 witness: for a concrete pair of scored items with distinct
identifiers the sorted list is strictly ordered by the tie-break key. -/
theorem claim_C2_witness :
    (([scoreMeal 0 none none mealW4, scoreMeal 0 none none mealTopC].map
        (fun it => it.meal.mealId)).Nodup) ∧
    (sortItems [scoreMeal 0 none none mealW4,
        scoreMeal 0 none none mealTopC]).Pairwise rankBefore :=
  ⟨by decide,
    ((claim_C2_tie_break_order
        [scoreMeal 0 none none mealW4, scoreMeal 0 none none mealTopC]).2.2.2
      (by decide)).1⟩

/-- C3: rank fails with InvalidInput exactly when the candidate list is
empty or the limit is non-positive, for every goal and ML score input; in
particular the call on the empty candidate list with limit 5 and an ML
mapping fails with InvalidInput. -/
theorem claim_C3_invalid_input :
    (∀ (candidates : List Meal) (goal : Option NutritionGoal)
       (scores : Option (List (ℕ × Frac))) (limit : ℤ),
       rank candidates goal scores limit = .error .invalidInput ↔
         (candidates = [] ∨ limit ≤ 0)) ∧
    rank [] none (some [(1, ⟨3, 2, by norm_num⟩)]) 5 = .error .invalidInput := by
  have hmain : ∀ (candidates : List Meal) (goal : Option NutritionGoal)
      (scores : Option (List (ℕ × Frac))) (limit : ℤ),
      rank candidates goal scores limit = .error .invalidInput ↔
        (candidates = [] ∨ limit ≤ 0) := by
    intro c g s l
    have hcond : (c.isEmpty = true ∨ l ≤ 0) ↔ (c = [] ∨ l ≤ 0) := by
      rw [List.isEmpty_iff]
    unfold rank
    by_cases h : c.isEmpty = true ∨ l ≤ 0
    · rw [if_pos h]
      simp only [true_iff]
      exact hcond.mp h
    · rw [if_neg h]
      constructor
      · intro hcontra
        by_cases h2 : mlScoresValid s = true
        · rw [if_pos h2] at hcontra
          exact absurd hcontra (by simp)
        · rw [if_neg h2] at hcontra
          simp only [Except.error.injEq] at hcontra
          exact absurd hcontra (by simp)
      · intro h2
        exact absurd (hcond.mpr h2) h
  exact ⟨hmain, (hmain [] none _ 5).mpr (Or.inl rfl)⟩

/-- C3 witness: the characterisation applied at a concrete call with a
non-positive limit. -/
theorem claim_C3_witness :
    rank [mealTopC] none none 0 = .error .invalidInput :=
  (claim_C3_invalid_input.1 [mealTopC] none none 0).mpr (Or.inr (by norm_num))

/-- C4 counterexample: at the input with empty candidates, limit 5 and an
ML mapping containing the out-of-range score 3/2, rank fails with
InvalidInput, not InconsistentScore, so the claim as stated (every input
with an out-of-range ML score fails with InconsistentScore) is false. -/
theorem claim_C4_counterexample :
    (∃ p ∈ [((1:ℕ), (⟨3, 2, by norm_num⟩ : Frac))],
       Frac.toQ p.2 < 0 ∨ 1 < Frac.toQ p.2) ∧
    rank [] none (some [(1, ⟨3, 2, by norm_num⟩)]) 5 ≠
      .error .inconsistentScore := by
  constructor
  · refine ⟨(1, ⟨3, 2, by norm_num⟩), by simp, Or.inr ?_⟩
    norm_num [Frac.toQ]
  · intro hcontra
    have hx : rank ([] : List Meal) none (some [(1, ⟨3, 2, by norm_num⟩)]) 5 =
        .error .invalidInput := rfl
    rw [hx] at hcontra
    simp at hcontra

/-- C4 amended: whenever the candidate list is non-empty and the limit is
positive (so InvalidInput does not apply) and the present ML mapping holds a
score outside the unit interval, rank fails with InconsistentScore — the
score is rejected rather than clamped — and this error is distinguishable
from InvalidInput. -/
theorem claim_C4_inconsistent_score :
    ∀ (candidates : List Meal) (goal : Option NutritionGoal)
      (sl : List (ℕ × Frac)) (limit : ℤ),
      candidates ≠ [] → 0 < limit →
      (∃ p ∈ sl, Frac.toQ p.2 < 0 ∨ 1 < Frac.toQ p.2) →
      rank candidates goal (some sl) limit = .error .inconsistentScore ∧
        RankError.inconsistentScore ≠ RankError.invalidInput := by
  intro c g sl l hne hpos hbad
  have hcond : ¬ (c.isEmpty = true ∨ l ≤ 0) := by
    rintro (h | h)
    · exact hne (List.isEmpty_iff.mp h)
    · omega
  have hval : ¬ mlScoresValid (some sl) = true := by
    intro hv
    unfold mlScoresValid at hv
    rw [List.all_eq_true] at hv
    obtain ⟨p, hp, hout⟩ := hbad
    have := hv p hp
    rw [Bool.and_eq_true, Frac.leB_iff, Frac.leB_iff, Frac.toQ_zero,
      Frac.toQ_one] at this
    rcases hout with hlow | hhigh
    · exact absurd this.1 (not_le.mpr hlow)
    · exact absurd this.2 (not_le.mpr hhigh)
  constructor
  · unfold rank
    rw [if_neg hcond, if_neg hval]
  · simp

/-- C4 witness: the amended statement holds at a concrete non-empty
candidate list with a score of 3/2 in the ML mapping. -/
theorem claim_C4_witness :
    ([mealTopC] ≠ []) ∧ ((0:ℤ) < 5) ∧
    (∃ p ∈ [((1:ℕ), (⟨3, 2, by norm_num⟩ : Frac))],
       Frac.toQ p.2 < 0 ∨ 1 < Frac.toQ p.2) ∧
    rank [mealTopC] none (some [(1, ⟨3, 2, by norm_num⟩)]) 5 =
      .error .inconsistentScore := by
  have hbad : ∃ p ∈ [((1:ℕ), (⟨3, 2, by norm_num⟩ : Frac))],
      Frac.toQ p.2 < 0 ∨ 1 < Frac.toQ p.2 :=
    ⟨(1, ⟨3, 2, by norm_num⟩), by simp, Or.inr (by norm_num [Frac.toQ])⟩
  exact ⟨by simp, by norm_num, hbad,
    (claim_C4_inconsistent_score [mealTopC] none _ 5 (by simp) (by norm_num)
      hbad).1⟩

/-- C5: with the ML score mapping entirely absent, every call on a
non-empty candidate list with positive limit succeeds, the result carries
the degraded-mode flag set, and no output item carries an ML component. -/
theorem claim_C5_degraded_mode :
    ∀ (candidates : List Meal) (goal : Option NutritionGoal) (limit : ℤ),
      candidates ≠ [] → 0 < limit →
      ∃ r, rank candidates goal none limit = .ok r ∧ r.mlDegraded = true ∧
        ∀ it ∈ r.items, it.mlComponent = none := by
  intro c g l hne hpos
  have hcond : ¬ (c.isEmpty = true ∨ l ≤ 0) := by
    rintro (h | h)
    · exact hne (List.isEmpty_iff.mp h)
    · omega
  have hok : rank c g none l =
      .ok ⟨diversityPass l.toNat (rankItems c g none), true⟩ := by
    unfold rank
    rw [if_neg hcond]
    rfl
  refine ⟨_, hok, rfl, ?_⟩
  intro it hit
  obtain ⟨m, hm, rfl⟩ := mem_rank_items hok it hit
  rfl

/-- C5 witness: degraded mode at a concrete call with one candidate and
limit 2. -/
theorem claim_C5_witness :
    ([mealTopC] ≠ []) ∧ ((0:ℤ) < 2) ∧
    ∃ r, rank [mealTopC] none none 2 = .ok r ∧ r.mlDegraded = true ∧
      ∀ it ∈ r.items, it.mlComponent = none :=
  ⟨by simp, by norm_num,
    claim_C5_degraded_mode [mealTopC] none 2 (by simp) (by norm_num)⟩

/-- C6: when the goal carries restriction tags, no output item of a
successful rank call has a tag among the restrictions — restricted meals
never appear, regardless of score. -/
theorem claim_C6_dietary_exclusion :
    ∀ (candidates : List Meal) (g : NutritionGoal)
      (scores : Option (List (ℕ × Frac))) (limit : ℤ) (r : RankedRecommendation),
      rank candidates (some g) scores limit = .ok r →
      ∀ it ∈ r.items, ∀ t ∈ it.meal.tags, t ∉ g.restrictions := by
  intro c g s l r hok it hit t ht hmem
  obtain ⟨m, hm, rfl⟩ := mem_rank_items hok it hit
  have hv : violatesRestrictions (some g) m = false := by
    have h2 := (List.mem_filter.mp hm).2
    simpa using h2
  unfold violatesRestrictions at hv
  simp only [scoreMeal_meal] at ht
  have hv2 : (m.tags.any fun tg => g.restrictions.contains tg) = false := hv
  have hhit : (m.tags.any fun tg => g.restrictions.contains tg) = true :=
    List.any_eq_true.mpr ⟨t, ht, List.elem_iff.mpr hmem⟩
  rw [hv2] at hhit
  simp at hhit

/-- Restricted meal used in the C6 witness: carries the tag nuts and the
highest rating. -/
def mealNuts : Meal := { plainMeal 5 "A" (Frac.ofNat 5) with tags := ["nuts"] }

/-- Goal used in the C6 witness: restricts the tag nuts. -/
def goalNoNuts : NutritionGoal :=
  { calories := Frac.ofNat 2000, protein := Frac.ofNat 50,
    restrictions := ["nuts"] }

/-- C6 witness: a concrete call with a restricted top-rated meal; no output
item carries a restricted tag. -/
theorem claim_C6_witness :
    ∃ r, rank [mealNuts, mealTopC] (some goalNoNuts) none 3 = .ok r ∧
      ∀ it ∈ r.items, ∀ t ∈ it.meal.tags, t ∉ goalNoNuts.restrictions := by
  refine ⟨_, rfl, ?_⟩
  exact claim_C6_dietary_exclusion [mealNuts, mealTopC] goalNoNuts none 3 _ rfl

/-- C7: the diversity pass is the deterministic greedy loop over the top
3 times limit sorted candidates with recency window max(1, limit / 3); on
the spec scenario of twenty same-cuisine meals plus two meals of a second
cuisine with limit 6, the output has exactly limit entries and contains
both second-cuisine meals. -/
theorem claim_C7_diversity :
    (∀ (limit : ℕ) (sorted : List RankedItem),
      diversityPass limit sorted =
        diversityGo limit (max 1 (limit / 3)) (sorted.take (3 * limit)).length
          [] (sorted.take (3 * limit))) ∧
    c7meals.length = 22 ∧
    (c7meals.filter (fun m => m.cuisine == "B")).length = 2 ∧
    (rankIds c7meals none none 6).length = 6 ∧
    21 ∈ rankIds c7meals none none 6 ∧
    22 ∈ rankIds c7meals none none 6 :=
  ⟨fun _ _ => rfl, by decide, by decide, by decide, by decide, by decide⟩

/-- C8 counterexample: raising the rating of the meal with identifier 2
(from 7/2 to 9/2, all other fields and all other meals unchanged) pushes it
out of the output while the unchanged meal with identifier 4 enters it, so
the position of the raised meal relative to an unchanged meal decreases:
rank output monotonicity fails on the full engine because of the diversity
pass. -/
theorem claim_C8_counterexample :
    (2 ∈ rankIds [mealTopC, mealMidC, mealA3, mealW4] none none 3 ∧
     4 ∉ rankIds [mealTopC, mealMidC, mealA3, mealW4] none none 3) ∧
    (2 ∉ rankIds [mealTopC, mealMidCRaised, mealA3, mealW4] none none 3 ∧
     4 ∈ rankIds [mealTopC, mealMidCRaised, mealA3, mealW4] none none 3) ∧
    Frac.toQ (ratingValue mealMidC) < Frac.toQ (ratingValue mealMidCRaised) ∧
    mealMidCRaised.mealId = mealMidC.mealId ∧
    mealMidCRaised.cuisine = mealMidC.cuisine ∧
    mealMidCRaised.popularity = mealMidC.popularity ∧
    mealMidCRaised.calories = mealMidC.calories ∧
    mealMidCRaised.protein = mealMidC.protein ∧
    mealMidCRaised.tags = mealMidC.tags := by
  refine ⟨⟨by decide, by decide⟩, ⟨by decide, by decide⟩, ?_,
    rfl, rfl, rfl, rfl, rfl, rfl⟩
  norm_num [Frac.toQ, ratingValue, mealMidC, mealMidCRaised, raiseRating,
    plainMeal]

/-- C8 amended: raising a single meal rating (all else fixed) never
decreases that meal position relative to unchanged meals in the
score-sorted order, the stage before the diversity pass: whenever the meal
precedes an unchanged meal in the sorted items of the original list, its
raised version still precedes that meal in the sorted items of the modified
list.  The subsequent diversity pass may still displace the meal, as the
counterexample shows. -/
theorem claim_C8_sort_monotonicity :
    ∀ (maxPop : ℕ) (goal : Option NutritionGoal)
      (scores : Option (List (ℕ × Frac))) (meals : List Meal)
      (y w : Meal) (f : Frac),
      (meals.map (fun m => m.mealId)).Nodup →
      y ∈ meals → w ∈ meals → y.mealId ≠ w.mealId →
      Frac.toQ (ratingValue y) < Frac.toQ f →
      [scoreMeal maxPop goal scores y, scoreMeal maxPop goal scores w].Sublist
        (sortItems (meals.map (scoreMeal maxPop goal scores))) →
      [scoreMeal maxPop goal scores (raiseRating y f),
       scoreMeal maxPop goal scores w].Sublist
        (sortItems ((meals.map (fun m =>
          if m.mealId = y.mealId then raiseRating y f else m)).map
          (scoreMeal maxPop goal scores))) := by
  intro mp g s meals y w f hnod hy hw hne hlt hsub
  have hbase_ids : ((meals.map (scoreMeal mp g s)).map
      (fun it => it.meal.mealId)).Nodup := by
    rw [List.map_map]
    exact hnod
  have hstrict := sortItems_pairwise_strict _ hbase_ids
  have hrb : rankBefore (scoreMeal mp g s y) (scoreMeal mp g s w) := by
    have hp := List.Pairwise.sublist hsub hstrict
    rw [List.pairwise_cons] at hp
    exact hp.1 _ (List.mem_singleton.mpr rfl)
  have hrb2 : rankBefore (scoreMeal mp g s (raiseRating y f))
      (scoreMeal mp g s w) := rankBefore_raise hrb hlt
  have hids2 : (meals.map (fun m =>
      if m.mealId = y.mealId then raiseRating y f else m)).map
        (fun m => m.mealId) = meals.map (fun m => m.mealId) := by
    rw [List.map_map]
    refine List.map_congr_left ?_
    intro m _
    by_cases hc : m.mealId = y.mealId
    · simp only [Function.comp_apply, if_pos hc]
      exact hc.symm
    · simp only [Function.comp_apply, if_neg hc]
  have hnod2 : ((meals.map (fun m =>
      if m.mealId = y.mealId then raiseRating y f else m)).map
        (fun m => m.mealId)).Nodup := by
    rw [hids2]
    exact hnod
  have hbase2_ids : (((meals.map (fun m =>
      if m.mealId = y.mealId then raiseRating y f else m)).map
        (scoreMeal mp g s)).map (fun it => it.meal.mealId)).Nodup := by
    rw [List.map_map]
    exact hnod2
  have hstrict2 := sortItems_pairwise_strict _ hbase2_ids
  have hy2 : raiseRating y f ∈ meals.map (fun m =>
      if m.mealId = y.mealId then raiseRating y f else m) := by
    refine List.mem_map.mpr ⟨y, hy, ?_⟩
    rw [if_pos rfl]
  have hw2 : w ∈ meals.map (fun m =>
      if m.mealId = y.mealId then raiseRating y f else m) := by
    refine List.mem_map.mpr ⟨w, hw, ?_⟩
    rw [if_neg (fun h => hne h.symm)]
  have hmy : scoreMeal mp g s (raiseRating y f) ∈
      sortItems ((meals.map (fun m =>
        if m.mealId = y.mealId then raiseRating y f else m)).map
        (scoreMeal mp g s)) :=
    (sortItems_perm _).mem_iff.mpr (List.mem_map_of_mem _ hy2)
  have hmw : scoreMeal mp g s w ∈
      sortItems ((meals.map (fun m =>
        if m.mealId = y.mealId then raiseRating y f else m)).map
        (scoreMeal mp g s)) :=
    (sortItems_perm _).mem_iff.mpr (List.mem_map_of_mem _ hw2)
  exact sublist_pair_of_rel rankBefore rankBefore
    (fun _ _ h => rankBefore_asymm h) (fun _ _ h => rankBefore_asymm h)
    _ hstrict2 _ _ hmy hmw hrb2

/-- Meal whose rating is raised in the C8 witness. -/
def wYmeal : Meal := plainMeal 11 "A" ⟨9, 2, by norm_num⟩

/-- Unchanged observer meal of the C8 witness. -/
def wWmeal : Meal := plainMeal 12 "B" (Frac.ofNat 4)

/-- C8 witness: the amended monotonicity statement at a concrete
two-candidate list, raising the first meal rating from 9/2 to 5. -/
theorem claim_C8_witness :
    (([wYmeal, wWmeal].map (fun m => m.mealId)).Nodup) ∧
    wYmeal ∈ [wYmeal, wWmeal] ∧ wWmeal ∈ [wYmeal, wWmeal] ∧
    wYmeal.mealId ≠ wWmeal.mealId ∧
    Frac.toQ (ratingValue wYmeal) < Frac.toQ (Frac.ofNat 5) ∧
    [scoreMeal 0 none none wYmeal, scoreMeal 0 none none wWmeal].Sublist
      (sortItems ([wYmeal, wWmeal].map (scoreMeal 0 none none))) ∧
    [scoreMeal 0 none none (raiseRating wYmeal (Frac.ofNat 5)),
     scoreMeal 0 none none wWmeal].Sublist
      (sortItems (([wYmeal, wWmeal].map (fun m =>
        if m.mealId = wYmeal.mealId then raiseRating wYmeal (Frac.ofNat 5)
        else m)).map (scoreMeal 0 none none))) := by
  have h1 : (([wYmeal, wWmeal].map (fun m => m.mealId)).Nodup) := by decide
  have h2 : wYmeal ∈ [wYmeal, wWmeal] := List.mem_cons_self _ _
  have h3 : wWmeal ∈ [wYmeal, wWmeal] :=
    List.mem_cons_of_mem _ (List.mem_cons_self _ _)
  have h4 : wYmeal.mealId ≠ wWmeal.mealId := by decide
  have h5 : Frac.toQ (ratingValue wYmeal) < Frac.toQ (Frac.ofNat 5) := by
    norm_num [Frac.toQ, ratingValue, wYmeal, plainMeal, Frac.ofNat]
  have h6 : [scoreMeal 0 none none wYmeal,
      scoreMeal 0 none none wWmeal].Sublist
      (sortItems ([wYmeal, wWmeal].map (scoreMeal 0 none none))) := by
    have hs : sortItems ([wYmeal, wWmeal].map (scoreMeal 0 none none)) =
        [scoreMeal 0 none none wYmeal, scoreMeal 0 none none wWmeal] := rfl
    rw [hs]
  exact ⟨h1, h2, h3, h4, h5, h6,
    claim_C8_sort_monotonicity 0 none none [wYmeal, wWmeal] wYmeal wWmeal
      (Frac.ofNat 5) h1 h2 h3 h4 h5 h6⟩

/-- C9: the Home page featured computation sorts the fetched meals with the
single comparator whose value is the key difference, where the key of a
meal is the plain sum averageRating + popularity with absent fields read as
0; the sorted order is a permutation of the meals, pairwise non-increasing
in that key, a meal with strictly larger key always precedes one with a
smaller key, and the featured list is the first min(6, n) meals of that
order. -/
theorem claim_C9_featured_comparator :
    ∀ meals : List Meal,
      Home.featuredMeals meals = (Home.sortHome meals).take 6 ∧
      (Home.featuredMeals meals).length = min 6 meals.length ∧
      (Home.sortHome meals).Perm meals ∧
      (∀ a b, Frac.toQ (Home.homeCompare a b) =
        Home.featuredKey b - Home.featuredKey a) ∧
      (Home.sortHome meals).Pairwise
        (fun a b => Home.featuredKey b ≤ Home.featuredKey a) ∧
      (∀ a b, a ∈ meals → b ∈ meals →
        Home.featuredKey b < Home.featuredKey a →
        [a, b].Sublist (Home.sortHome meals)) ∧
      (Home.featuredMeals meals).Pairwise
        (fun a b => Home.featuredKey b ≤ Home.featuredKey a) := by
  intro meals
  refine ⟨rfl, ?_, Home.sortHome_perm meals, Home.toQ_homeCompare,
    Home.sortHome_pairwise meals, ?_, ?_⟩
  · unfold Home.featuredMeals
    rw [List.length_take, (Home.sortHome_perm meals).length_eq]
  · intro a b ha hb hk
    refine sublist_pair_of_rel
      (fun a b => Home.featuredKey b < Home.featuredKey a)
      (fun a b => Home.featuredKey b ≤ Home.featuredKey a)
      (fun _ _ h => lt_asymm h) (fun _ _ h => not_lt.mpr h)
      (Home.sortHome meals) (Home.sortHome_pairwise meals) a b
      ((Home.sortHome_perm meals).mem_iff.mpr ha)
      ((Home.sortHome_perm meals).mem_iff.mpr hb) hk
  · exact List.Pairwise.sublist (List.take_sublist 6 _)
      (Home.sortHome_pairwise meals)

/-- C9 witness: at a concrete pair of meals with keys 5 and 3, the meal
with the larger key precedes the other in the sorted order of the Home
page. -/
theorem claim_C9_witness :
    mealTopC ∈ [mealW4, mealTopC] ∧ mealW4 ∈ [mealW4, mealTopC] ∧
    Home.featuredKey mealW4 < Home.featuredKey mealTopC ∧
    [mealTopC, mealW4].Sublist (Home.sortHome [mealW4, mealTopC]) := by
  have ha : mealTopC ∈ [mealW4, mealTopC] :=
    List.mem_cons_of_mem _ (List.mem_cons_self _ _)
  have hb : mealW4 ∈ [mealW4, mealTopC] := List.mem_cons_self _ _
  have hk : Home.featuredKey mealW4 < Home.featuredKey mealTopC := by
    norm_num [Home.featuredKey, ratingValue, mealW4, mealTopC, plainMeal,
      Frac.toQ, Frac.ofNat]
  exact ⟨ha, hb, hk,
    (claim_C9_featured_comparator [mealW4, mealTopC]).2.2.2.2.2.1
      mealTopC mealW4 ha hb hk⟩

/-- C10: the Home page stats averageRating is the sum of per-meal ratings
(absent ratings contributing 0) divided by the meal count; for the empty
meal list the not-a-number quotient is replaced by 0 through the or-zero
fallback, so the displayed value is always a number. -/
theorem claim_C10_stats_average :
    ∀ meals : List Meal,
      (meals = [] → Frac.toQ (Home.statsAverageRating meals) = 0) ∧
      (meals ≠ [] → Frac.toQ (Home.statsAverageRating meals) =
        (meals.map (fun m => Frac.toQ (ratingValue m))).sum / meals.length) := by
  intro meals
  constructor
  · intro h
    subst h
    exact Frac.toQ_zero
  · intro hne
    have hlen : meals.length ≠ 0 := fun h => hne (List.length_eq_zero.mp h)
    have hq : Frac.toQ (Frac.ofNat meals.length) ≠ 0 := by
      rw [Frac.toQ_ofNat]
      exact_mod_cast hlen
    have he : ¬ Frac.eqB (Frac.ofNat meals.length) Frac.zero = true := by
      intro hb
      have := Frac.eqB_iff.mp hb
      rw [Frac.toQ_zero] at this
      exact hq this
    have h1 : Home.jsDiv (Home.totalRating meals) (Frac.ofNat meals.length) =
        some (Frac.div (Home.totalRating meals) (Frac.ofNat meals.length)) := by
      unfold Home.jsDiv
      rw [if_neg he]
    have hOr : ∀ v, Frac.toQ (Home.jsOrZero (some v)) = Frac.toQ v := by
      intro v
      show Frac.toQ (if Frac.eqB v Frac.zero then Frac.zero else v) = Frac.toQ v
      by_cases hv : Frac.eqB v Frac.zero = true
      · rw [if_pos hv, Frac.toQ_zero]
        have h2 := Frac.eqB_iff.mp hv
        rw [Frac.toQ_zero] at h2
        exact h2.symm
      · rw [if_neg hv]
    unfold Home.statsAverageRating
    rw [h1, hOr, Frac.toQ_div, Home.toQ_totalRating, Frac.toQ_ofNat]

/-- C10 witness: the stats average at the empty list is 0 and at a concrete
one-meal list it is the rating sum divided by 1. -/
theorem claim_C10_witness :
    (Frac.toQ (Home.statsAverageRating []) = 0) ∧
    ([mealTopC] ≠ []) ∧
    Frac.toQ (Home.statsAverageRating [mealTopC]) =
      ([mealTopC].map (fun m => Frac.toQ (ratingValue m))).sum /
        ([mealTopC] : List Meal).length :=
  ⟨(claim_C10_stats_average []).1 rfl, by simp,
    (claim_C10_stats_average [mealTopC]).2 (by simp)⟩

end MealRec
